import Mathlib

/-!
Shallow embedding of the currency formatting and parsing core of
`src/Components/CurrencyInput.tsx` (functions `formatCurrency`, lines 165-194,
and `parseCurrency`, lines 201-208).

Strings are modelled as `List Char`.  The JavaScript built-ins that the source
calls are modelled exactly on the decimal fragment they are applied to:

* `String.prototype.replace` with a global single-character regex and a
  constant replacement is a per-character filter / map;
* `parseFloat` reads the longest prefix of the string that is a decimal
  literal (the strings it receives here contain only ASCII digits and the
  character '.', so no sign and no exponent can occur); its result is kept as
  the exact pair of digit strings (integer digits, fraction digits), whose
  rational value is `decValue`;
* `Number.prototype.toFixed(d)` throws a `RangeError` when `d > 100`
  (modelled as `none`) and otherwise renders the value rounded half-up to
  `d` fractional digits.

The model computes with exact decimal values where the program computes with
IEEE binary64 doubles.  The two agree only away from three effects of
binary64: (a) `parseFloat` rounds the literal to the nearest double, with
relative error at most one part in 2^52; (b) `toFixed` rounds that double,
so exact half-way ties can fall the other way (in JavaScript
`(1.005).toFixed(2)` is "1.00"); (c) for doubles at or above 1e21, `toFixed`
returns the exponent-notation `toString` rendering instead of fixed
notation.  Every theorem below whose truth depends on numeric values
therefore carries hypotheses that confine the input to the region where the
double pipeline provably coincides with the exact model: ties are excluded
where the rounding direction matters, and the value scaled to the relevant
digit position is bounded by 2^51, so that the double rounding error (at
most the value times 2^-52) is strictly smaller than the distance to the
nearest rounding boundary and the 1e21 branch is unreachable.  Theorems
about pure string manipulation (filtering, separators, grouping, sentinel)
need no such hypotheses: there the model is exact.

Fallibility (the `RangeError` of `toFixed`) makes `formatCurrency` return an
`Option`; `none` means the JavaScript code throws.
-/

/-- Configuration of the component: `decimalLength`, `decimalSeparator` and
`thousandSeparator` props (defaults 2, ',' and '.').  The TypeScript
`Separator` type restricts the separators to '.' and ','. -/
structure Config where
  decimalLength : Nat
  decimalSeparator : Char
  thousandSeparator : Char

/-- One step of reading a decimal digit string most-significant first. -/
def digitStep (n : Nat) (c : Char) : Nat := 10 * n + (c.toNat - 48)

/-- Numeric value of a string of ASCII decimal digits. -/
def digitsToNat (l : List Char) : Nat := l.foldl digitStep 0

/-- Fuelled decimal rendering of a natural number (most significant first).
The fuel is irrelevant as soon as it exceeds the number. -/
def natDigitsAux : Nat → Nat → List Char
  | 0, _ => []
  | fuel + 1, n =>
    if n < 10 then [Char.ofNat (48 + n)]
    else natDigitsAux fuel (n / 10) ++ [Char.ofNat (48 + n % 10)]

/-- Decimal rendering of a natural number, e.g. `natDigits 120 = "120"`. -/
def natDigits (n : Nat) : List Char := natDigitsAux (n + 1) n

/-- Left-pad a digit string with '0' up to length `d` (used for the fraction
part emitted by `toFixed`). -/
def padZeros (d : Nat) (l : List Char) : List Char :=
  List.replicate (d - l.length) '0' ++ l

/-- Model of `parseFloat` on strings made of ASCII digits and '.': the longest
valid prefix is `integer-digits [ '.' fraction-digits ]`; `none` is `NaN`.
The value read is kept as the exact pair (integer digits, fraction digits);
the program instead holds the nearest binary64 double, whose relative error
is at most one part in 2^52.  Claims whose truth depends on the value (C1,
C3, C8) carry magnitude bounds under which this error cannot change any
digit the claim talks about; which-prefix-is-read questions (C10) and NaN
detection are exact. -/
def jsParseFloat (l : List Char) : Option (List Char × List Char) :=
  let ip := l.takeWhile Char.isDigit
  let rest := l.dropWhile Char.isDigit
  match rest with
  | '.' :: r =>
    let fp := r.takeWhile Char.isDigit
    if ip = [] ∧ fp = [] then none else some (ip, fp)
  | _ => if ip = [] then none else some (ip, [])

/-- Carry of round-half-up at fractional position `d`: 1 exactly when the
digit at index `d` of the fraction exists and is at least '5' (code 53). -/
def roundBit (d : Nat) (fp : List Char) : Nat :=
  match fp.get? d with
  | some c => if 53 ≤ c.toNat then 1 else 0
  | none => 0

/-- The value `digitsToNat ip + digitsToNat fp / 10 ^ |fp|` scaled by `10 ^ d`
and rounded half-up to an integer, as `toFixed d` rounds it. -/
def roundScaled (d : Nat) (ip fp : List Char) : Nat :=
  digitsToNat ip * 10 ^ d
    + digitsToNat (fp.take d) * 10 ^ (d - (fp.take d).length)
    + roundBit d fp

/-- Decimal string of the scaled integer `n / 10 ^ d`, with exactly `d`
fraction digits after '.' when `d > 0` and no '.' when `d = 0`. -/
def renderFixed (d : Nat) (n : Nat) : List Char :=
  if d = 0 then natDigits n
  else natDigits (n / 10 ^ d) ++ '.' :: padZeros d (natDigits (n % 10 ^ d))

/-- Model of `Number.prototype.toFixed d` on the exact decimal value read by
`jsParseFloat`: `none` is the `RangeError` thrown when `d > 100` (ECMA-262;
this branch is exact, the argument check precedes any numeric work).  Two
behaviours of the real `toFixed` are deliberately not reproduced and are
instead excluded by hypotheses on the claims that could reach them: the
ECMA `x >= 10^21` branch, which returns the exponent-notation `toString`
rendering (excluded by magnitude bounds in C1, C3 and C8 — for C4 it is
irrelevant, since that branch also returns a string without throwing), and
the fact that the program rounds the nearest binary64 double rather than
the exact decimal, which can flip exact half-way ties (excluded in C1 by a
no-tie hypothesis; C3 needs no tie hypothesis because idempotence holds
whichever side a tie falls). -/
def jsToFixed (d : Nat) (ip fp : List Char) : Option (List Char) :=
  if 100 < d then none else some (renderFixed d (roundScaled d ip fp))

/-- Model of `String.prototype.split` at a single character, e.g.
`splitChar '.' "12.34" = ["12", "34"]` and `splitChar '.' "" = [""]`. -/
def splitChar (c : Char) : List Char → List (List Char)
  | [] => [[]]
  | x :: xs =>
    if x = c then [] :: splitChar c xs
    else
      match splitChar c xs with
      | [] => [[x]]
      | s :: ss => (x :: s) :: ss

/-- Reversed-list worker for the thousands-grouping regex replacement
`integerPart.replace(/\B(?=(\d{3})+(?!\d))/g, thousandSeparator)`: on the
reversed digit string, a separator is inserted after every run of three
digits that is followed by at least one more digit. -/
def groupRevAux (sep : Char) : List Char → List Char
  | a :: b :: c :: d :: rest => a :: b :: c :: sep :: groupRevAux sep (d :: rest)
  | l => l

/-- Model of the thousands-grouping regex replacement on a digit string:
separators are inserted from the right in runs of three, never at the very
start (the `\B` of the regex). -/
def groupThousands (sep : Char) (l : List Char) : List Char :=
  (groupRevAux sep l.reverse).reverse

/-- Zero sentinel `"0" + decimalSeparator + "0".repeat(decimalLength)`
returned for empty, digit-free or unparsable input (lines 167-168, 173-174
and 181-182 of the source). -/
def zeroSentinel (cfg : Config) : List Char :=
  '0' :: cfg.decimalSeparator :: List.replicate cfg.decimalLength '0'

/-- Lines 180-193 of `formatCurrency`: from the `parseFloat` result, return
the sentinel on `NaN`, otherwise call `toFixed`, split its output at '.',
take `parts[0]` as integer part, `parts[1]` (when present and non-empty,
the JavaScript truthiness test) prefixed by the decimal separator as decimal
part, and group the integer part with the thousand separator. -/
def formatNumeric (cfg : Config) (pf : Option (List Char × List Char)) :
    Option (List Char) :=
  match pf with
  | none => some (zeroSentinel cfg)
  | some (ip, fp) =>
    match jsToFixed cfg.decimalLength ip fp with
    | none => none
    | some fixedValue =>
      let parts := splitChar '.' fixedValue
      let integerPart := parts.headD []
      let decimalPart :=
        match parts.get? 1 with
        | some p => if p = [] then [] else cfg.decimalSeparator :: p
        | none => []
      some (groupThousands cfg.thousandSeparator integerPart ++ decimalPart)

/-- Embedding of `formatCurrency` (lines 165-194): empty input yields the
zero sentinel; every character that is neither an ASCII digit nor the
decimal separator is removed; if nothing remains the sentinel is returned;
otherwise the decimal separator is canonicalised to '.', the string is read
by `parseFloat` and rendered by `formatNumeric`.  A numeric argument enters
as its decimal `toString` rendering.  `none` models a thrown exception. -/
def formatCurrency (cfg : Config) (value : List Char) : Option (List Char) :=
  if value = [] then some (zeroSentinel cfg)
  else
    let numericValue :=
      value.filter fun ch => ch.isDigit || ch == cfg.decimalSeparator
    if numericValue = [] then some (zeroSentinel cfg)
    else
      let normalizedValue :=
        numericValue.map fun ch =>
          if ch == cfg.decimalSeparator then '.' else ch
      formatNumeric cfg (jsParseFloat normalizedValue)

/-- Embedding of `parseCurrency` (lines 201-208): delete every occurrence of
the thousand separator, then replace every occurrence of the decimal
separator by '.'. -/
def parseCurrency (cfg : Config) (value : List Char) : List Char :=
  (value.filter fun c => c != cfg.thousandSeparator).map
    fun c => if c == cfg.decimalSeparator then '.' else c

/-- Specification-side restatement of the parser contract: a single
per-character pass that drops thousand separators, turns decimal separators
into '.' and keeps every other character unchanged. -/
def specParse (cfg : Config) (value : List Char) : List Char :=
  value.filterMap fun c =>
    if c = cfg.thousandSeparator then none
    else if c = cfg.decimalSeparator then some '.'
    else some c

/-- Exact rational value of the decimal number with integer digits `ip` and
fraction digits `fp`. -/
def decValue (ip fp : List Char) : ℚ :=
  (digitsToNat ip : ℚ) + (digitsToNat fp : ℚ) / 10 ^ fp.length

/-- Numeric reading of a string by `parseFloat`, as an exact rational
(`none` is `NaN`). -/
def parseFloatQ (l : List Char) : Option ℚ :=
  (jsParseFloat l).map fun p => decValue p.1 p.2

/-- Mathematical rounding of a rational to `d` fractional digits, half away
from zero on the non-negative values used here. -/
def jsRound (d : Nat) (q : ℚ) : ℚ := (⌊q * 10 ^ d + 1 / 2⌋ : ℚ) / 10 ^ d

/-- Reversed-list checker for a digit string grouped in threes by `sep`:
groups of three digits separated by `sep`, the last (most significant) group
of length one to three. -/
def groupedRevAux (sep : Char) : List Char → Bool
  | [] => false
  | [a] => a.isDigit
  | [a, b] => a.isDigit && b.isDigit
  | [a, b, c] => a.isDigit && b.isDigit && c.isDigit
  | a :: b :: c :: d :: rest =>
    a.isDigit && b.isDigit && c.isDigit && (d = sep) && groupedRevAux sep rest

/-- Checker for an integer part correctly grouped from the right in runs of
three digits by `sep`. -/
def isGroupedDigits (sep : Char) (l : List Char) : Bool :=
  groupedRevAux sep l.reverse

/-- Checker for the DisplayString pattern of the specification: a grouped
integer part, followed, exactly when `decimalLength > 0`, by the decimal
separator and exactly `decimalLength` digits. -/
def matchesDisplayPattern (cfg : Config) (r : List Char) : Bool :=
  let ipart := r.takeWhile fun c => c != cfg.decimalSeparator
  let rest := r.dropWhile fun c => c != cfg.decimalSeparator
  isGroupedDigits cfg.thousandSeparator ipart &&
    (if cfg.decimalLength = 0 then rest.isEmpty
     else
       match rest with
       | [] => false
       | _ :: fd => fd.all Char.isDigit && decide (fd.length = cfg.decimalLength))

/-- Canonical shape of the non-sentinel output of `formatCurrency`: the
rounded scaled value `S` rendered with `decimalLength` fraction digits, the
integer part grouped in thousands.  `formatNumeric` is proved to produce
exactly this below. -/
def formOutput (cfg : Config) (S : Nat) : List Char :=
  groupThousands cfg.thousandSeparator (natDigits (S / 10 ^ cfg.decimalLength)) ++
    (if cfg.decimalLength = 0 then []
     else cfg.decimalSeparator ::
       padZeros cfg.decimalLength (natDigits (S % 10 ^ cfg.decimalLength)))

/-! ### Basic lemmas about digit characters and `digitsToNat` -/

theorem char_toNat_of_isDigit {c : Char} (h : c.isDigit = true) :
    48 ≤ c.toNat ∧ c.toNat ≤ 57 := by
  simp [Char.isDigit] at h
  exact ⟨h.1, h.2⟩

theorem digitVal_le_nine {c : Char} (h : c.isDigit = true) : c.toNat - 48 ≤ 9 := by
  have := (char_toNat_of_isDigit h).2
  omega

theorem dot_not_digit : ('.').isDigit = false := by decide

theorem comma_not_digit : (',').isDigit = false := by decide

theorem sep_not_digit {c : Char} (h : c = '.' ∨ c = ',') : c.isDigit = false := by
  rcases h with h | h <;> subst h <;> decide

theorem digit_ne_sep {x c : Char} (hx : x.isDigit = true) (hc : c = '.' ∨ c = ',') :
    x ≠ c := by
  intro he
  subst he
  rw [sep_not_digit hc] at hx
  exact Bool.false_ne_true hx

theorem digitsToNat_nil : digitsToNat [] = 0 := rfl

theorem digitsToNat_foldl (acc : Nat) (l : List Char) :
    l.foldl digitStep acc = acc * 10 ^ l.length + digitsToNat l := by
  induction l generalizing acc with
  | nil => simp [digitsToNat]
  | cons c l ih =>
    have hc : digitsToNat (c :: l) = (c.toNat - 48) * 10 ^ l.length + digitsToNat l := by
      show List.foldl digitStep (digitStep 0 c) l = _
      rw [ih (digitStep 0 c)]
      simp [digitStep]
    rw [List.foldl_cons, ih (digitStep acc c), hc, digitStep]
    simp [List.length_cons, pow_succ]
    ring

theorem digitsToNat_cons (c : Char) (l : List Char) :
    digitsToNat (c :: l) = (c.toNat - 48) * 10 ^ l.length + digitsToNat l := by
  show List.foldl digitStep (digitStep 0 c) l = _
  rw [digitsToNat_foldl (digitStep 0 c)]
  simp [digitStep]

theorem digitsToNat_append (a b : List Char) :
    digitsToNat (a ++ b) = digitsToNat a * 10 ^ b.length + digitsToNat b := by
  show List.foldl digitStep 0 (a ++ b) = _
  rw [List.foldl_append]
  exact digitsToNat_foldl (digitsToNat a) b

theorem digitsToNat_lt (l : List Char) (h : ∀ c ∈ l, c.isDigit = true) :
    digitsToNat l < 10 ^ l.length := by
  induction l with
  | nil => simp [digitsToNat]
  | cons c l ih =>
    have hc := digitVal_le_nine (h c (by simp))
    have hl := ih fun x hx => h x (by simp [hx])
    rw [digitsToNat_cons]
    have h10 : (10 : Nat) ^ (c :: l).length = 10 * 10 ^ l.length := by
      simp [List.length_cons, pow_succ]
      ring
    rw [h10]
    nlinarith [pow_pos (by norm_num : (0:Nat) < 10) l.length]

theorem digitsToNat_replicate_zero (k : Nat) :
    digitsToNat (List.replicate k '0') = 0 := by
  induction k with
  | zero => rfl
  | succ k ih =>
    rw [List.replicate_succ, digitsToNat_cons, ih]
    have h0 : ('0').toNat - 48 = 0 := by decide
    rw [h0]
    simp

theorem digitsToNat_padZeros (d : Nat) (l : List Char) :
    digitsToNat (padZeros d l) = digitsToNat l := by
  rw [padZeros, digitsToNat_append, digitsToNat_replicate_zero]
  simp

theorem padZeros_length {d : Nat} {l : List Char} (h : l.length ≤ d) :
    (padZeros d l).length = d := by
  simp [padZeros]
  omega

theorem padZeros_all_digit {d : Nat} {l : List Char}
    (h : ∀ c ∈ l, c.isDigit = true) : ∀ c ∈ padZeros d l, c.isDigit = true := by
  intro c hc
  rcases List.mem_append.mp hc with hm | hm
  · rw [List.eq_of_mem_replicate hm]; decide
  · exact h c hm

/-! ### Lemmas about `natDigits` -/

theorem natDigitsAux_fuel (f₁ : Nat) : ∀ f₂ n : Nat, n < f₁ → n < f₂ →
    natDigitsAux f₁ n = natDigitsAux f₂ n := by
  induction f₁ with
  | zero => intro f₂ n h₁; omega
  | succ f₁ ih =>
    intro f₂ n h₁ h₂
    cases f₂ with
    | zero => omega
    | succ f₂ =>
      rw [natDigitsAux, natDigitsAux]
      by_cases h : n < 10
      · simp [h]
      · simp only [if_neg h]
        have hd : n / 10 < n := Nat.div_lt_self (by omega) (by norm_num)
        rw [ih f₂ (n / 10) (by omega) (by omega)]

theorem natDigits_eq_small {n : Nat} (h : n < 10) :
    natDigits n = [Char.ofNat (48 + n)] := by
  rw [natDigits, natDigitsAux, if_pos h]

theorem natDigits_eq_step {n : Nat} (h : 10 ≤ n) :
    natDigits n = natDigits (n / 10) ++ [Char.ofNat (48 + n % 10)] := by
  rw [natDigits, natDigitsAux, if_neg (by omega)]
  rw [natDigits]
  congr 1
  exact natDigitsAux_fuel n (n / 10 + 1) (n / 10)
    (Nat.div_lt_self (by omega) (by norm_num)) (Nat.lt_succ_self _)

theorem small_digit_char {m : Nat} (h : m < 10) :
    (Char.ofNat (48 + m)).isDigit = true ∧ (Char.ofNat (48 + m)).toNat = 48 + m := by
  interval_cases m <;> exact ⟨by decide, by decide⟩

theorem digitsToNat_natDigits (n : Nat) : digitsToNat (natDigits n) = n := by
  induction n using Nat.strong_induction_on with
  | _ n ih =>
    by_cases h : n < 10
    · rw [natDigits_eq_small h, digitsToNat_cons, digitsToNat_nil,
        (small_digit_char h).2]
      simp
    · rw [natDigits_eq_step (by omega), digitsToNat_append,
        ih (n / 10) (Nat.div_lt_self (by omega) (by norm_num)),
        digitsToNat_cons, digitsToNat_nil,
        (small_digit_char (Nat.mod_lt n (by norm_num))).2]
      simp [Nat.div_add_mod]
      omega

theorem natDigits_ne_nil (n : Nat) : natDigits n ≠ [] := by
  by_cases h : n < 10
  · rw [natDigits_eq_small h]; simp
  · rw [natDigits_eq_step (by omega)]; simp

theorem natDigits_all_digit (n : Nat) : ∀ c ∈ natDigits n, c.isDigit = true := by
  induction n using Nat.strong_induction_on with
  | _ n ih =>
    by_cases h : n < 10
    · rw [natDigits_eq_small h]
      intro c hc
      rw [List.mem_singleton.mp hc]
      exact (small_digit_char h).1
    · rw [natDigits_eq_step (by omega)]
      intro c hc
      rcases List.mem_append.mp hc with hm | hm
      · exact ih (n / 10) (Nat.div_lt_self (by omega) (by norm_num)) c hm
      · rw [List.mem_singleton.mp hm]
        exact (small_digit_char (Nat.mod_lt n (by norm_num))).1

theorem natDigits_length_le {n k : Nat} (hk : 1 ≤ k) (h : n < 10 ^ k) :
    (natDigits n).length ≤ k := by
  induction n using Nat.strong_induction_on generalizing k with
  | _ n ih =>
    by_cases hn : n < 10
    · rw [natDigits_eq_small hn]
      simpa using hk
    · rw [natDigits_eq_step (by omega)]
      cases k with
      | zero => omega
      | succ k =>
        have hk1 : 1 ≤ k := by
          rcases Nat.eq_zero_or_pos k with h0 | h1
          · subst h0; simp at h; omega
          · exact h1
        have hdiv : n / 10 < 10 ^ k := by
          rw [Nat.div_lt_iff_lt_mul (by norm_num)]
          calc n < 10 ^ (k + 1) := h
            _ = 10 ^ k * 10 := by rw [pow_succ]
        have := ih (n / 10) (Nat.div_lt_self (by omega) (by norm_num)) hk1 hdiv
        simp [List.length_append]
        omega

/-! ### Reading digit strings with `jsParseFloat` -/

theorem takeWhile_digits (a : List Char) (ha : ∀ c ∈ a, c.isDigit = true) :
    a.takeWhile Char.isDigit = a := by
  induction a with
  | nil => rfl
  | cons c a ih =>
    rw [List.takeWhile_cons, ha c (by simp)]
    simp [ih fun x hx => ha x (by simp [hx])]

theorem dropWhile_digits (a : List Char) (ha : ∀ c ∈ a, c.isDigit = true) :
    a.dropWhile Char.isDigit = [] := by
  induction a with
  | nil => rfl
  | cons c a ih =>
    rw [List.dropWhile_cons, ha c (by simp)]
    simp [ih fun x hx => ha x (by simp [hx])]

theorem takeWhile_digits_dot (a r : List Char) (ha : ∀ c ∈ a, c.isDigit = true) :
    (a ++ '.' :: r).takeWhile Char.isDigit = a := by
  induction a with
  | nil => simp [List.takeWhile_cons, dot_not_digit]
  | cons c a ih =>
    rw [List.cons_append, List.takeWhile_cons, ha c (by simp)]
    simp [ih fun x hx => ha x (by simp [hx])]

theorem dropWhile_digits_dot (a r : List Char) (ha : ∀ c ∈ a, c.isDigit = true) :
    (a ++ '.' :: r).dropWhile Char.isDigit = '.' :: r := by
  induction a with
  | nil => simp [List.dropWhile_cons, dot_not_digit]
  | cons c a ih =>
    rw [List.cons_append, List.dropWhile_cons, ha c (by simp)]
    simp [ih fun x hx => ha x (by simp [hx])]

theorem jsParseFloat_digits (a : List Char) (ha : ∀ c ∈ a, c.isDigit = true)
    (hne : a ≠ []) : jsParseFloat a = some (a, []) := by
  simp only [jsParseFloat, takeWhile_digits a ha, dropWhile_digits a ha]
  simp [hne]

theorem jsParseFloat_dot (a r : List Char) (ha : ∀ c ∈ a, c.isDigit = true)
    (hne : a ≠ []) :
    jsParseFloat (a ++ '.' :: r) = some (a, r.takeWhile Char.isDigit) := by
  simp only [jsParseFloat, takeWhile_digits_dot a r ha, dropWhile_digits_dot a r ha]
  simp [hne]

theorem jsParseFloat_nil : jsParseFloat [] = none := by decide

/-! ### `splitChar` -/

theorem splitChar_of_not_mem {c : Char} {l : List Char} (h : c ∉ l) :
    splitChar c l = [l] := by
  induction l with
  | nil => rfl
  | cons x xs ih =>
    have hx : ¬x = c := fun he => h (by simp [he])
    rw [splitChar, if_neg hx, ih fun hm => h (List.mem_cons_of_mem _ hm)]

theorem splitChar_append {c : Char} (a b : List Char) (h : c ∉ a) :
    splitChar c (a ++ c :: b) = a :: splitChar c b := by
  induction a with
  | nil => simp [splitChar]
  | cons x xs ih =>
    have hx : ¬x = c := fun he => h (by simp [he])
    rw [List.cons_append, splitChar, if_neg hx,
      ih fun hm => h (List.mem_cons_of_mem _ hm)]

/-! ### `groupThousands` -/

theorem groupRevAux_ne_nil (sep : Char) (l : List Char) (h : l ≠ []) :
    groupRevAux sep l ≠ [] := by
  match l with
  | [] => exact absurd rfl h
  | [a] => simp [groupRevAux]
  | [a, b] => simp [groupRevAux]
  | [a, b, c] => simp [groupRevAux]
  | a :: b :: c :: d :: rest => simp [groupRevAux]

theorem groupRevAux_filter (sep : Char) (l : List Char) (h : sep ∉ l) :
    (groupRevAux sep l).filter (fun c => c != sep) = l := by
  induction l using groupRevAux.induct sep with
  | case1 a b c d rest ih =>
    have ha : (a != sep) = true := by
      simp only [bne_iff_ne, ne_eq]
      exact fun he => h (by simp [he])
    have hb : (b != sep) = true := by
      simp only [bne_iff_ne, ne_eq]
      exact fun he => h (by simp [he])
    have hc : (c != sep) = true := by
      simp only [bne_iff_ne, ne_eq]
      exact fun he => h (by simp [he])
    have hrest : sep ∉ d :: rest := fun hm => h (by simp [hm])
    rw [groupRevAux, List.filter_cons, ha, List.filter_cons, hb,
      List.filter_cons, hc, List.filter_cons]
    simp only [bne_self_eq_false]
    rw [ih hrest]
    simp
  | case2 l hshape =>
    rw [groupRevAux.eq_def]
    split
    · rename_i a b c d rest
      exact (hshape a b c d rest rfl).elim
    · exact List.filter_eq_self.mpr fun x hx => by
        simp only [bne_iff_ne, ne_eq]
        exact fun he => h (he ▸ hx)

theorem groupThousands_filter (sep : Char) (l : List Char) (h : sep ∉ l) :
    (groupThousands sep l).filter (fun c => c != sep) = l := by
  rw [groupThousands, List.filter_reverse,
    groupRevAux_filter sep l.reverse (by simpa using h), List.reverse_reverse]

theorem groupRevAux_mem (sep : Char) (l : List Char) :
    ∀ c ∈ groupRevAux sep l, c ∈ l ∨ c = sep := by
  induction l using groupRevAux.induct sep with
  | case1 a b c d rest ih =>
    intro x hx
    rw [groupRevAux] at hx
    simp only [List.mem_cons] at hx
    rcases hx with h | h | h | h | h
    · exact Or.inl (by simp [h])
    · exact Or.inl (by simp [h])
    · exact Or.inl (by simp [h])
    · exact Or.inr h
    · rcases ih x h with hm | hm
      · exact Or.inl (by simp only [List.mem_cons] at hm ⊢; tauto)
      · exact Or.inr hm
  | case2 l hshape =>
    intro x hx
    rw [groupRevAux.eq_def] at hx
    split at hx
    · rename_i a b c d rest
      exact (hshape a b c d rest rfl).elim
    · exact Or.inl hx

theorem groupThousands_mem (sep : Char) (l : List Char) :
    ∀ c ∈ groupThousands sep l, c ∈ l ∨ c = sep := by
  intro c hc
  rw [groupThousands, List.mem_reverse] at hc
  rcases groupRevAux_mem sep l.reverse c hc with hm | hm
  · exact Or.inl (List.mem_reverse.mp hm)
  · exact Or.inr hm

theorem groupedRevAux_of_group (sep : Char) (l : List Char)
    (h : ∀ c ∈ l, c.isDigit = true) (hne : l ≠ []) :
    groupedRevAux sep (groupRevAux sep l) = true := by
  induction l using groupRevAux.induct sep with
  | case1 a b c d rest ih =>
    rw [groupRevAux]
    have hg := ih (fun x hx => h x (by simp only [List.mem_cons] at hx ⊢; tauto))
      (by simp)
    obtain ⟨y, ys, hy⟩ :
        ∃ y ys, groupRevAux sep (d :: rest) = y :: ys := by
      rcases he : groupRevAux sep (d :: rest) with _ | ⟨y, ys⟩
      · exact absurd he (groupRevAux_ne_nil sep (d :: rest) (by simp))
      · exact ⟨y, ys, rfl⟩
    rw [hy] at hg ⊢
    show groupedRevAux sep (a :: b :: c :: sep :: y :: ys) = true
    rw [groupedRevAux]
    simp [h a (by simp), h b (by simp), h c (by simp), hg]
  | case2 l hshape =>
    rw [groupRevAux.eq_def]
    split
    · rename_i a b c d rest
      exact (hshape a b c d rest rfl).elim
    · match l, hne with
      | [a], _ => simpa [groupedRevAux] using h a (by simp)
      | [a, b], _ =>
        simp [groupedRevAux, h a (by simp), h b (by simp)]
      | [a, b, c], _ =>
        simp [groupedRevAux, h a (by simp), h b (by simp), h c (by simp)]
      | a :: b :: c :: d :: rest, _ => exact (hshape a b c d rest rfl).elim

theorem isGroupedDigits_groupThousands (sep : Char) (l : List Char)
    (h : ∀ c ∈ l, c.isDigit = true) (hne : l ≠ []) :
    isGroupedDigits sep (groupThousands sep l) = true := by
  rw [isGroupedDigits, groupThousands, List.reverse_reverse]
  exact groupedRevAux_of_group sep l.reverse
    (fun c hc => h c (List.mem_reverse.mp hc)) (by simpa using hne)

/-! ### Shape of the output of `formatCurrency` -/

theorem sep_not_mem_of_digits {l : List Char} {s : Char} (hs : s = '.' ∨ s = ',')
    (h : ∀ c ∈ l, c.isDigit = true) : s ∉ l := by
  intro hm
  have hd := h s hm
  rw [sep_not_digit hs] at hd
  exact Bool.false_ne_true hd

theorem formatNumeric_some (cfg : Config) (ip fp : List Char)
    (hd : cfg.decimalLength ≤ 100) :
    formatNumeric cfg (some (ip, fp)) =
      some (formOutput cfg (roundScaled cfg.decimalLength ip fp)) := by
  have hfix : jsToFixed cfg.decimalLength ip fp
      = some (renderFixed cfg.decimalLength (roundScaled cfg.decimalLength ip fp)) := by
    rw [jsToFixed, if_neg (by omega)]
  by_cases h0 : cfg.decimalLength = 0
  · rw [renderFixed, if_pos h0] at hfix
    simp only [formatNumeric, hfix]
    rw [splitChar_of_not_mem
      (sep_not_mem_of_digits (Or.inl rfl) (natDigits_all_digit _))]
    simp [formOutput, h0]
  · rw [renderFixed, if_neg h0] at hfix
    simp only [formatNumeric, hfix]
    have hB : (padZeros cfg.decimalLength
        (natDigits (roundScaled cfg.decimalLength ip fp % 10 ^ cfg.decimalLength))).length
        = cfg.decimalLength := by
      refine padZeros_length (natDigits_length_le (by omega) ?_)
      exact Nat.mod_lt _ (pow_pos (by norm_num) _)
    have hBne : padZeros cfg.decimalLength
        (natDigits (roundScaled cfg.decimalLength ip fp % 10 ^ cfg.decimalLength)) ≠ [] := by
      intro he
      rw [he] at hB
      simp at hB
      omega
    rw [splitChar_append _ _
        (sep_not_mem_of_digits (Or.inl rfl) (natDigits_all_digit _)),
      splitChar_of_not_mem
        (sep_not_mem_of_digits (Or.inl rfl)
          (padZeros_all_digit (natDigits_all_digit _)))]
    simp [formOutput, if_neg h0, hBne]

theorem formatNumeric_overflow (cfg : Config) (ip fp : List Char)
    (hd : 100 < cfg.decimalLength) :
    formatNumeric cfg (some (ip, fp)) = none := by
  rw [formatNumeric, jsToFixed, if_pos hd]

theorem formatCurrency_parsed (cfg : Config) (s ip fp : List Char)
    (hpf : jsParseFloat
        ((s.filter fun ch => ch.isDigit || ch == cfg.decimalSeparator).map
          fun ch => if ch == cfg.decimalSeparator then '.' else ch) = some (ip, fp))
    (hd : cfg.decimalLength ≤ 100) :
    formatCurrency cfg s
      = some (formOutput cfg (roundScaled cfg.decimalLength ip fp)) := by
  have hsne : s ≠ [] := by
    intro he
    subst he
    simp [jsParseFloat_nil] at hpf
  have hnum : (s.filter fun ch => ch.isDigit || ch == cfg.decimalSeparator) ≠ [] := by
    intro he
    rw [he] at hpf
    simp [jsParseFloat_nil] at hpf
  simp only [formatCurrency, if_neg hsne, if_neg hnum, hpf]
  exact formatNumeric_some cfg ip fp hd

theorem formatCurrency_shape (cfg : Config) (s r : List Char)
    (h : formatCurrency cfg s = some r) :
    r = zeroSentinel cfg ∨ ∃ S : Nat, r = formOutput cfg S := by
  by_cases hsne : s = []
  · subst hsne
    rw [formatCurrency] at h
    simp at h
    exact Or.inl h.symm
  by_cases hnum : (s.filter fun ch => ch.isDigit || ch == cfg.decimalSeparator) = []
  · rw [formatCurrency, if_neg hsne] at h
    simp only [hnum] at h
    simp at h
    exact Or.inl h.symm
  rcases hpf : jsParseFloat
      ((s.filter fun ch => ch.isDigit || ch == cfg.decimalSeparator).map
        fun ch => if ch == cfg.decimalSeparator then '.' else ch) with _ | ⟨ip, fp⟩
  · rw [formatCurrency, if_neg hsne] at h
    simp only [if_neg hnum, hpf, formatNumeric] at h
    exact Or.inl (Option.some_injective _ h).symm
  · by_cases hd : cfg.decimalLength ≤ 100
    · rw [formatCurrency_parsed cfg s ip fp hpf hd] at h
      exact Or.inr ⟨roundScaled cfg.decimalLength ip fp,
        (Option.some_injective _ h).symm⟩
    · rw [formatCurrency, if_neg hsne] at h
      simp only [if_neg hnum, hpf,
        formatNumeric_overflow cfg ip fp (by omega)] at h
      exact absurd h (by simp)

theorem formOutput_chars (cfg : Config) (S : Nat) :
    ∀ c ∈ formOutput cfg S,
      c.isDigit = true ∨ c = cfg.decimalSeparator ∨ c = cfg.thousandSeparator := by
  intro c hc
  rw [formOutput] at hc
  rcases List.mem_append.mp hc with hm | hm
  · rcases groupThousands_mem _ _ c hm with hg | hg
    · exact Or.inl (natDigits_all_digit _ c hg)
    · exact Or.inr (Or.inr hg)
  · by_cases h0 : cfg.decimalLength = 0
    · rw [if_pos h0] at hm
      exact absurd hm (List.not_mem_nil c)
    · rw [if_neg h0] at hm
      rcases List.mem_cons.mp hm with hg | hg
      · exact Or.inr (Or.inl hg)
      · exact Or.inl (padZeros_all_digit (natDigits_all_digit _) c hg)

theorem zeroSentinel_chars (cfg : Config) :
    ∀ c ∈ zeroSentinel cfg, c.isDigit = true ∨ c = cfg.decimalSeparator := by
  intro c hc
  rw [zeroSentinel] at hc
  rcases List.mem_cons.mp hc with hg | hg
  · exact Or.inl (by rw [hg]; decide)
  rcases List.mem_cons.mp hg with hg2 | hg2
  · exact Or.inr hg2
  · exact Or.inl (by rw [List.eq_of_mem_replicate hg2]; decide)

theorem takeWhile_append_stop {p : Char → Bool} (a : List Char) (x : Char)
    (r : List Char) (ha : ∀ c ∈ a, p c = true) (hx : p x = false) :
    (a ++ x :: r).takeWhile p = a := by
  induction a with
  | nil => simp [List.takeWhile_cons, hx]
  | cons c a ih =>
    rw [List.cons_append, List.takeWhile_cons, ha c (by simp)]
    simp [ih fun y hy => ha y (by simp [hy])]

theorem dropWhile_append_stop {p : Char → Bool} (a : List Char) (x : Char)
    (r : List Char) (ha : ∀ c ∈ a, p c = true) (hx : p x = false) :
    (a ++ x :: r).dropWhile p = x :: r := by
  induction a with
  | nil => simp [List.dropWhile_cons, hx]
  | cons c a ih =>
    rw [List.cons_append, List.dropWhile_cons, ha c (by simp)]
    simp [ih fun y hy => ha y (by simp [hy])]

theorem takeWhile_all (p : Char → Bool) (a : List Char)
    (ha : ∀ c ∈ a, p c = true) : a.takeWhile p = a := by
  induction a with
  | nil => rfl
  | cons c a ih =>
    rw [List.takeWhile_cons, ha c (by simp)]
    simp [ih fun y hy => ha y (by simp [hy])]

theorem dropWhile_all (p : Char → Bool) (a : List Char)
    (ha : ∀ c ∈ a, p c = true) : a.dropWhile p = [] := by
  induction a with
  | nil => rfl
  | cons c a ih =>
    rw [List.dropWhile_cons, ha c (by simp)]
    simp [ih fun y hy => ha y (by simp [hy])]

/-! ### Claim theorems -/

/-- C2: the claim states `format(1532.31, {decimalLength 2, decimalSeparator
',', thousandSeparator '.'}) = "1.532,31"`.  The code disagrees: the number
stringifies to "1532.31", whose '.' is not the configured decimal separator
and is deleted by the filtering regex, so the code returns "153.231,00"
(the value 153231 formatted), not "1.532,31". -/
theorem c2_format_result :
    formatCurrency ⟨2, ',', '.'⟩ "1532.31".data = some "153.231,00".data ∧
      formatCurrency ⟨2, ',', '.'⟩ "1532.31".data ≠ some "1.532,31".data :=
  ⟨by decide, by decide⟩

/-- C4 (amended): for every input string and configuration with
`decimalLength ≤ 100`, `formatCurrency` returns a string (never throws,
modelled as `isSome`) and `parseCurrency` returns a string no longer than
its input.  The bound 100 is forced: `Number.prototype.toFixed` throws a
`RangeError` above it, see the counterexample. -/
theorem c4_format_parse_total (cfg : Config) (s : List Char)
    (hd : cfg.decimalLength ≤ 100) :
    (formatCurrency cfg s).isSome = true ∧
      (parseCurrency cfg s).length ≤ s.length := by
  constructor
  · by_cases hsne : s = []
    · subst hsne
      rw [formatCurrency]
      simp
    · by_cases hnum : (s.filter fun ch => ch.isDigit || ch == cfg.decimalSeparator) = []
      · rw [formatCurrency, if_neg hsne]
        simp [hnum]
      · rcases hpf : jsParseFloat
            ((s.filter fun ch => ch.isDigit || ch == cfg.decimalSeparator).map
              fun ch => if ch == cfg.decimalSeparator then '.' else ch) with _ | ⟨ip, fp⟩
        · rw [formatCurrency, if_neg hsne]
          simp only [if_neg hnum, hpf, formatNumeric]
          simp
        · rw [formatCurrency_parsed cfg s ip fp hpf hd]
          simp
  · rw [parseCurrency]
    rw [List.length_map]
    exact List.length_filter_le _ s

/-- Witness for C4 at a concrete input. -/
theorem c4_format_parse_total_witness :
    (formatCurrency ⟨2, ',', '.'⟩ "12".data).isSome = true ∧
      (parseCurrency ⟨2, ',', '.'⟩ "12".data).length ≤ "12".data.length :=
  c4_format_parse_total ⟨2, ',', '.'⟩ "12".data (by decide)

/-- Counterexample to C4 as stated: with the non-negative integer
`decimalLength = 101` and separators from the allowed set, formatting "1"
reaches `toFixed(101)`, which throws a `RangeError` (modelled as `none`),
so format does not return a string. -/
theorem c4_counterexample :
    formatCurrency ⟨101, ',', '.'⟩ "1".data = none := by decide

/-- C5: the empty string, and every string containing no ASCII digit and no
decimal-separator character, make `formatCurrency` return the zero sentinel
`"0" ++ decimalSeparator ++ decimalLength * "0"` (and in particular not
throw). -/
theorem c5_zero_sentinel (cfg : Config) (s : List Char)
    (h : s = [] ∨ ∀ c ∈ s, c.isDigit = false ∧ c ≠ cfg.decimalSeparator) :
    formatCurrency cfg s = some (zeroSentinel cfg) := by
  rcases h with h | h
  · subst h
    rw [formatCurrency]
    simp
  · by_cases hsne : s = []
    · subst hsne
      rw [formatCurrency]
      simp
    · have hnum : (s.filter fun ch => ch.isDigit || ch == cfg.decimalSeparator) = [] := by
        refine List.filter_eq_nil_iff.mpr fun c hc => ?_
        have hcc := h c hc
        simp [hcc.1, hcc.2]
      rw [formatCurrency, if_neg hsne]
      simp [hnum]

/-- Witness for C5 at the concrete inputs of the claim. -/
theorem c5_zero_sentinel_witness :
    formatCurrency ⟨2, ',', '.'⟩ "abc".data = some (zeroSentinel ⟨2, ',', '.'⟩) :=
  c5_zero_sentinel ⟨2, ',', '.'⟩ "abc".data (Or.inr (by decide))

/-- C6: for every string and configuration, `parseCurrency` equals the single
per-character pass that deletes every occurrence of the thousand separator,
replaces every occurrence of the decimal separator by '.', and keeps every
other character unchanged. -/
theorem c6_parse_charwise (cfg : Config) (s : List Char) :
    parseCurrency cfg s = specParse cfg s := by
  obtain ⟨d, dec, thou⟩ := cfg
  induction s with
  | nil => rfl
  | cons c s ih =>
    simp only [parseCurrency, specParse, List.filter_cons, List.filterMap_cons] at ih ⊢
    by_cases ht : c = thou
    · subst ht
      simpa using ih
    · by_cases hdc : c = dec
      · subst hdc
        simpa [ht] using ih
      · simpa [ht, hdc] using ih

/-- C7: with `decimalLength = 0`, formatting 999999 groups the integer part
in threes with the configured thousand separator and emits no decimal
separator and no fraction: "999.999" for thousand separator '.' and
"999,999" for ','. -/
theorem c7_grouping_no_decimals :
    formatCurrency ⟨0, ',', '.'⟩ "999999".data = some "999.999".data ∧
      formatCurrency ⟨0, '.', ','⟩ "999999".data = some "999,999".data :=
  ⟨by decide, by decide⟩

/-- C9: a leading minus sign is removed by the filtering pass, so formatting
a string with '-' prepended gives the same result as formatting the string
itself, and no output of `formatCurrency` ever contains '-'. -/
theorem c9_minus_stripped (cfg : Config) (s : List Char)
    (hdec : cfg.decimalSeparator = '.' ∨ cfg.decimalSeparator = ',')
    (hthou : cfg.thousandSeparator = '.' ∨ cfg.thousandSeparator = ',') :
    formatCurrency cfg ('-' :: s) = formatCurrency cfg s ∧
      ∀ r, formatCurrency cfg s = some r → '-' ∉ r := by
  have hmd : ('-').isDigit = false := by decide
  have hmdec : ('-' : Char) ≠ cfg.decimalSeparator := by
    rcases hdec with h | h <;> rw [h] <;> decide
  have hmthou : ('-' : Char) ≠ cfg.thousandSeparator := by
    rcases hthou with h | h <;> rw [h] <;> decide
  constructor
  · have hfil : ('-' :: s).filter (fun ch => ch.isDigit || ch == cfg.decimalSeparator)
        = s.filter (fun ch => ch.isDigit || ch == cfg.decimalSeparator) := by
      rw [List.filter_cons]
      simp [hmd, hmdec]
    by_cases hsne : s = []
    · subst hsne
      rw [formatCurrency, formatCurrency]
      rw [if_neg (by simp : ¬('-' :: ([] : List Char)) = [])]
      simp [hfil]
    · rw [formatCurrency, formatCurrency,
        if_neg (by simp : ¬('-' :: s) = []), if_neg hsne]
      simp only [hfil]
  · intro r hr hm
    rcases formatCurrency_shape cfg s r hr with hsen | ⟨S, hS⟩
    · subst hsen
      rcases zeroSentinel_chars cfg '-' hm with hz | hz
      · rw [hmd] at hz
        exact Bool.false_ne_true hz
      · exact hmdec hz
    · subst hS
      rcases formOutput_chars cfg S '-' hm with hz | hz | hz
      · rw [hmd] at hz
        exact Bool.false_ne_true hz
      · exact hmdec hz
      · exact hmthou hz

/-- Witness for C9 at a concrete input and the default configuration. -/
theorem c9_minus_stripped_witness :
    formatCurrency ⟨2, ',', '.'⟩ ('-' :: "12".data) = formatCurrency ⟨2, ',', '.'⟩ "12".data ∧
      ∀ r, formatCurrency ⟨2, ',', '.'⟩ "12".data = some r → '-' ∉ r :=
  c9_minus_stripped ⟨2, ',', '.'⟩ "12".data (Or.inr rfl) (Or.inl rfl)

/-- C10: on a raw input of digits containing the decimal separator at least
twice, with at least one digit before the first occurrence, `formatCurrency`
gives the same result as on the prefix that ends just before the second
occurrence: `parseFloat` reads only the longest valid numeric prefix. -/
theorem c10_second_separator_ignored (cfg : Config) (a b c : List Char)
    (hdec : cfg.decimalSeparator = '.' ∨ cfg.decimalSeparator = ',')
    (ha : a ≠ []) (had : ∀ x ∈ a, x.isDigit = true)
    (hbd : ∀ x ∈ b, x.isDigit = true)
    (hcd : ∀ x ∈ c, x.isDigit = true ∨ x = cfg.decimalSeparator) :
    formatCurrency cfg (a ++ cfg.decimalSeparator :: (b ++ cfg.decimalSeparator :: c))
      = formatCurrency cfg (a ++ cfg.decimalSeparator :: b) := by
  have hpred : ∀ x : Char, x.isDigit = true ∨ x = cfg.decimalSeparator →
      (x.isDigit || x == cfg.decimalSeparator) = true := by
    intro x hx
    rcases hx with hx | hx <;> simp [hx]
  have hfilL : (a ++ cfg.decimalSeparator :: (b ++ cfg.decimalSeparator :: c)).filter
        (fun ch => ch.isDigit || ch == cfg.decimalSeparator)
      = a ++ cfg.decimalSeparator :: (b ++ cfg.decimalSeparator :: c) := by
    refine List.filter_eq_self.mpr fun x hx => ?_
    simp only [List.mem_append, List.mem_cons] at hx
    refine hpred x ?_
    rcases hx with hx | hx | hx | hx | hx
    · exact Or.inl (had x hx)
    · exact Or.inr hx
    · exact Or.inl (hbd x hx)
    · exact Or.inr hx
    · exact hcd x hx
  have hfilR : (a ++ cfg.decimalSeparator :: b).filter
        (fun ch => ch.isDigit || ch == cfg.decimalSeparator)
      = a ++ cfg.decimalSeparator :: b := by
    refine List.filter_eq_self.mpr fun x hx => ?_
    simp only [List.mem_append, List.mem_cons] at hx
    refine hpred x ?_
    rcases hx with hx | hx | hx
    · exact Or.inl (had x hx)
    · exact Or.inr hx
    · exact Or.inl (hbd x hx)
  have hmapd : ∀ l : List Char, (∀ x ∈ l, x.isDigit = true) →
      l.map (fun ch => if ch == cfg.decimalSeparator then '.' else ch) = l := by
    intro l hl
    rw [show l = l.map id by simp]
    rw [List.map_map]
    refine List.map_congr_left fun x hx => ?_
    simp [digit_ne_sep (hl x (by simpa using hx)) hdec]
  have hmapL : (a ++ cfg.decimalSeparator :: (b ++ cfg.decimalSeparator :: c)).map
        (fun ch => if ch == cfg.decimalSeparator then '.' else ch)
      = a ++ '.' :: (b ++ '.' ::
          c.map (fun ch => if ch == cfg.decimalSeparator then '.' else ch)) := by
    rw [List.map_append, List.map_cons, List.map_append, List.map_cons,
      hmapd a had, hmapd b hbd]
    simp
  have hmapR : (a ++ cfg.decimalSeparator :: b).map
        (fun ch => if ch == cfg.decimalSeparator then '.' else ch)
      = a ++ '.' :: b := by
    rw [List.map_append, List.map_cons, hmapd a had, hmapd b hbd]
    simp
  have hLne : a ++ cfg.decimalSeparator :: (b ++ cfg.decimalSeparator :: c) ≠ [] := by
    simp [ha]
  have hRne : a ++ cfg.decimalSeparator :: b ≠ [] := by
    simp [ha]
  rw [formatCurrency, formatCurrency, if_neg hLne, if_neg hRne]
  simp only [hfilL, hfilR, hmapL, hmapR]
  rw [jsParseFloat_dot a _ had ha, jsParseFloat_dot a b had ha,
    takeWhile_digits_dot b _ hbd, takeWhile_digits b hbd,
    if_neg hLne, if_neg hRne]

/-- Witness for C10: "1.2.3" formats like "1.2" when '.' is the decimal
separator. -/
theorem c10_second_separator_ignored_witness :
    formatCurrency ⟨2, '.', ','⟩ ("1".data ++ '.' :: ("2".data ++ '.' :: "3".data))
      = formatCurrency ⟨2, '.', ','⟩ ("1".data ++ '.' :: "2".data) :=
  c10_second_separator_ignored ⟨2, '.', ','⟩ "1".data "2".data "3".data
    (Or.inl rfl) (by decide) (by decide) (by decide) (by decide)

/-- C8 (amended): for every input of at most 20 characters, every string
returned by `formatCurrency` either matches the DisplayString pattern —
grouped integer part, then, exactly when `decimalLength > 0`, the decimal
separator and exactly `decimalLength` digits — or `decimalLength = 0` and
the string is the zero sentinel `"0" ++ decimalSeparator`, which carries a
trailing decimal separator (the fallback the code returns whenever the
filtered input is empty or reads as `NaN`, e.g. for "", "abc" or "..5").
The sentinel disjunct is forced by the counterexample.  The length bound is
forced by binary64: a 22-digit input parses to a double at or above 1e21,
where `toFixed` returns exponent notation such as "1e+22", which matches
neither disjunct; at most 20 characters keep the parsed value (and its
double) below 1e21, where `toFixed` always emits plain fixed notation and
the output shape is exactly the one proved here. -/
theorem c8_display_pattern (cfg : Config) (s r : List Char)
    (hdec : cfg.decimalSeparator = '.' ∨ cfg.decimalSeparator = ',')
    (hthou : cfg.thousandSeparator = '.' ∨ cfg.thousandSeparator = ',')
    (hsep : cfg.decimalSeparator ≠ cfg.thousandSeparator)
    (hlen : s.length ≤ 20)
    (hr : formatCurrency cfg s = some r) :
    matchesDisplayPattern cfg r = true ∨
      (cfg.decimalLength = 0 ∧ r = zeroSentinel cfg) := by
  rcases formatCurrency_shape cfg s r hr with hsen | ⟨S, hS⟩
  · by_cases h0 : cfg.decimalLength = 0
    · exact Or.inr ⟨h0, hsen⟩
    · left
      subst hsen
      have h0d : (('0' : Char) != cfg.decimalSeparator) = true := by
        rcases hdec with h | h <;> rw [h] <;> decide
      rw [matchesDisplayPattern, zeroSentinel]
      rw [List.takeWhile_cons, List.dropWhile_cons]
      simp only [h0d, if_true, List.takeWhile_cons, List.dropWhile_cons,
        bne_self_eq_false, Bool.false_eq_true, if_false]
      rw [if_neg h0]
      simp [isGroupedDigits, groupedRevAux, List.eq_of_mem_replicate]
  · left
    subst hS
    have hpG : ∀ x ∈ groupThousands cfg.thousandSeparator
        (natDigits (S / 10 ^ cfg.decimalLength)), (x != cfg.decimalSeparator) = true := by
      intro x hx
      simp only [bne_iff_ne, ne_eq]
      rcases groupThousands_mem _ _ x hx with hm | hm
      · exact digit_ne_sep (natDigits_all_digit _ x hm) hdec
      · rw [hm]
        exact fun he => hsep he.symm
    have hG : isGroupedDigits cfg.thousandSeparator
        (groupThousands cfg.thousandSeparator
          (natDigits (S / 10 ^ cfg.decimalLength))) = true :=
      isGroupedDigits_groupThousands _ _ (natDigits_all_digit _) (natDigits_ne_nil _)
    by_cases h0 : cfg.decimalLength = 0
    · rw [matchesDisplayPattern, formOutput, if_pos h0, List.append_nil]
      rw [takeWhile_all _ _ hpG, dropWhile_all _ _ hpG]
      simp only [h0, pow_zero, Nat.div_one] at hG ⊢
      simp [hG]
    · rw [matchesDisplayPattern, formOutput, if_neg h0]
      rw [takeWhile_append_stop _ _ _ hpG (by simp), dropWhile_append_stop _ _ _ hpG (by simp)]
      have hB : (padZeros cfg.decimalLength
          (natDigits (S % 10 ^ cfg.decimalLength))).length = cfg.decimalLength :=
        padZeros_length (natDigits_length_le (by omega)
          (Nat.mod_lt _ (pow_pos (by norm_num) _)))
      have hBd : ∀ x ∈ padZeros cfg.decimalLength
          (natDigits (S % 10 ^ cfg.decimalLength)), x.isDigit = true :=
        padZeros_all_digit (natDigits_all_digit _)
      rw [if_neg h0]
      simp only [hG, Bool.true_and]
      simp [List.all_eq_true, hB, hBd]
      exact hBd

/-- Witness for C8 at a concrete formatted output. -/
theorem c8_display_pattern_witness :
    matchesDisplayPattern ⟨2, '.', ','⟩ "1,532.31".data = true ∨
      ((⟨2, '.', ','⟩ : Config).decimalLength = 0 ∧
        "1,532.31".data = zeroSentinel ⟨2, '.', ','⟩) :=
  c8_display_pattern ⟨2, '.', ','⟩ "1532.31".data "1,532.31".data
    (Or.inl rfl) (Or.inr rfl) (by decide) (by decide) (by decide)

/-- Counterexample to C8 as stated: with `decimalLength = 0` the empty input
formats to "0." — the zero sentinel keeps its trailing decimal separator —
which does not match the DisplayString pattern. -/
theorem c8_counterexample :
    formatCurrency ⟨0, '.', ','⟩ [] = some "0.".data ∧
      matchesDisplayPattern ⟨0, '.', ','⟩ "0.".data = false :=
  ⟨by decide, by decide⟩

/-! ### Round-trip machinery for C1 and C3 -/

theorem map_canonical_id (l : List Char) :
    l.map (fun ch => if ch == '.' then '.' else ch) = l := by
  have h : ∀ x : Char, (if x == '.' then '.' else x) = x := by
    intro x
    by_cases hx : x = '.' <;> simp [hx]
  calc l.map (fun ch => if ch == '.' then '.' else ch)
      = l.map id := List.map_congr_left fun x _ => h x
    _ = l := List.map_id l

/-- A decimal literal (digits, optionally '.' and digits) formats, under a
configuration whose decimal separator is '.', to the canonical output for
its half-up rounded scaled value. -/
theorem formatCurrency_decimal_literal (cfg : Config) (ip fp s : List Char)
    (hdec : cfg.decimalSeparator = '.') (hd : cfg.decimalLength ≤ 100)
    (hip : ip ≠ []) (hipd : ∀ c ∈ ip, c.isDigit = true)
    (hfpd : ∀ c ∈ fp, c.isDigit = true)
    (hs : s = ip ++ '.' :: fp ∨ (s = ip ∧ fp = [])) :
    formatCurrency cfg s
      = some (formOutput cfg (roundScaled cfg.decimalLength ip fp)) := by
  refine formatCurrency_parsed cfg s ip fp ?_ hd
  have hfil : s.filter (fun ch => ch.isDigit || ch == cfg.decimalSeparator) = s := by
    refine List.filter_eq_self.mpr fun x hx => ?_
    rcases hs with hsh | ⟨hsh, hfp⟩
    · subst hsh
      simp only [List.mem_append, List.mem_cons] at hx
      rcases hx with hx | hx | hx
      · simp [hipd x hx]
      · simp [hx, hdec]
      · simp [hfpd x hx]
    · subst hsh
      simp [hipd x hx]
  rw [hfil, hdec, map_canonical_id]
  rcases hs with hsh | ⟨hsh, hfp⟩
  · subst hsh
    rw [jsParseFloat_dot ip fp hipd hip, takeWhile_digits fp hfpd]
  · subst hfp
    rw [hsh]
    exact jsParseFloat_digits ip hipd hip

/-- Parsing the canonical output under decimal separator '.' and thousand
separator ',' recovers the plain `toFixed` rendering. -/
theorem parseCurrency_formOutput (cfg : Config) (S : Nat)
    (hdec : cfg.decimalSeparator = '.') (hthou : cfg.thousandSeparator = ',') :
    parseCurrency cfg (formOutput cfg S)
      = natDigits (S / 10 ^ cfg.decimalLength) ++
          (if cfg.decimalLength = 0 then []
           else '.' :: padZeros cfg.decimalLength
             (natDigits (S % 10 ^ cfg.decimalLength))) := by
  have hnotmem : (',' : Char) ∉ natDigits (S / 10 ^ cfg.decimalLength) :=
    sep_not_mem_of_digits (Or.inr rfl) (natDigits_all_digit _)
  by_cases h0 : cfg.decimalLength = 0
  · rw [parseCurrency, hdec, hthou, map_canonical_id, formOutput, hthou, if_pos h0,
      List.append_nil, if_pos h0, List.append_nil]
    exact groupThousands_filter ',' _ hnotmem
  · rw [parseCurrency, hdec, hthou, map_canonical_id, formOutput, hdec, hthou,
      if_neg h0, List.filter_append,
      groupThousands_filter ',' _ hnotmem, List.filter_cons]
    have hdot : (('.' : Char) != ',') = true := by decide
    rw [hdot, if_pos rfl]
    congr 2
    refine List.filter_eq_self.mpr fun x hx => ?_
    simp only [bne_iff_ne, ne_eq]
    exact digit_ne_sep (padZeros_all_digit (natDigits_all_digit _) x hx) (Or.inr rfl)

theorem roundScaled_render_pos (d S : Nat) (hd : 1 ≤ d) :
    roundScaled d (natDigits (S / 10 ^ d)) (padZeros d (natDigits (S % 10 ^ d))) = S := by
  have hlen : (padZeros d (natDigits (S % 10 ^ d))).length = d :=
    padZeros_length (natDigits_length_le hd (Nat.mod_lt _ (pow_pos (by norm_num) _)))
  rw [roundScaled, List.take_of_length_le (le_of_eq hlen)]
  rw [roundBit, List.get?_eq_none.mpr (le_of_eq hlen)]
  rw [hlen, digitsToNat_natDigits, digitsToNat_padZeros, digitsToNat_natDigits]
  simp
  rw [Nat.mul_comm]
  exact Nat.div_add_mod S (10 ^ d)

theorem roundScaled_render_zero (S : Nat) :
    roundScaled 0 (natDigits S) [] = S := by
  rw [roundScaled, roundBit]
  simp [digitsToNat_natDigits, digitsToNat_nil]

/-- C3 (amended): with decimal separator '.', thousand separator ',' and
`decimalLength ≤ 100`, formatting is idempotent across one parse/format
round trip on every non-negative decimal literal input whose integer part
scaled by `decimalLength` stays below `2^50` (`hmag`).  The restriction to
decimal separator '.' is forced: with separator ',' the canonical '.' that
`parseCurrency` emits is destroyed by the next filtering pass, see the
counterexample.  The bound `hmag` is forced by binary64: without it the
value 1e22 (plain rendering) reaches the `x ≥ 10^21` branch of `toFixed`,
whose "1e+22" output re-formats to a different string.  Under `hmag` the
scaled integer emitted by the first `toFixed` is below `2^50 + 1`, so
re-reading its rendering as a double keeps its scaled error below
`2^-52 * 2^51 = 1/2` of a grid step and the second `toFixed` reproduces the
identical digit string; this holds whichever side the first rounding fell,
so no tie hypothesis is needed. -/
theorem c3_roundtrip_idempotent (cfg : Config) (ip fp s : List Char)
    (hdec : cfg.decimalSeparator = '.') (hthou : cfg.thousandSeparator = ',')
    (hd : cfg.decimalLength ≤ 100)
    (hip : ip ≠ []) (hipd : ∀ c ∈ ip, c.isDigit = true)
    (hfpd : ∀ c ∈ fp, c.isDigit = true)
    (hmag : (digitsToNat ip + 1) * 10 ^ cfg.decimalLength ≤ 2 ^ 50)
    (hs : s = ip ++ '.' :: fp ∨ (s = ip ∧ fp = [])) :
    ∀ r, formatCurrency cfg s = some r →
      formatCurrency cfg (parseCurrency cfg r) = some r := by
  intro r hr
  rw [formatCurrency_decimal_literal cfg ip fp s hdec hd hip hipd hfpd hs] at hr
  injection hr with hr
  subst hr
  rw [parseCurrency_formOutput cfg _ hdec hthou]
  by_cases h0 : cfg.decimalLength = 0
  · rw [if_pos h0, List.append_nil]
    rw [formatCurrency_decimal_literal cfg
      (natDigits (roundScaled cfg.decimalLength ip fp / 10 ^ cfg.decimalLength)) []
      _ hdec hd (natDigits_ne_nil _) (natDigits_all_digit _) (by simp)
      (Or.inr ⟨rfl, rfl⟩)]
    rw [h0]
    rw [show (10 : Nat) ^ 0 = 1 from rfl, Nat.div_one, roundScaled_render_zero]
  · rw [if_neg h0]
    rw [formatCurrency_decimal_literal cfg
      (natDigits (roundScaled cfg.decimalLength ip fp / 10 ^ cfg.decimalLength))
      (padZeros cfg.decimalLength
        (natDigits (roundScaled cfg.decimalLength ip fp % 10 ^ cfg.decimalLength)))
      _ hdec hd (natDigits_ne_nil _) (natDigits_all_digit _)
      (padZeros_all_digit (natDigits_all_digit _)) (Or.inl rfl)]
    rw [roundScaled_render_pos cfg.decimalLength _ (by omega)]

/-- Witness for C3 at the concrete input 1532.31. -/
theorem c3_roundtrip_idempotent_witness :
    formatCurrency ⟨2, '.', ','⟩ (parseCurrency ⟨2, '.', ','⟩ "1,532.31".data)
      = some "1,532.31".data :=
  c3_roundtrip_idempotent ⟨2, '.', ','⟩ "1532".data "31".data "1532.31".data
    rfl rfl (by decide) (by decide) (by decide) (by decide) (by decide)
    (Or.inl (by decide)) "1,532.31".data (by decide)

/-- Counterexample to C3 as stated: with decimal separator ',' and thousand
separator '.', the value 1 formats to "1,00", which parses to "1.00"; the
second format strips that '.' and yields "100,00", not "1,00". -/
theorem c3_counterexample :
    formatCurrency ⟨2, ',', '.'⟩ "1".data = some "1,00".data ∧
      parseCurrency ⟨2, ',', '.'⟩ "1,00".data = "1.00".data ∧
      formatCurrency ⟨2, ',', '.'⟩ "1.00".data = some "100,00".data ∧
      ("100,00".data : List Char) ≠ "1,00".data :=
  ⟨by decide, by decide, by decide, by decide⟩

/-! ### Half-up rounding agrees with the mathematical floor -/

theorem digitsToNat_take_drop (l : List Char) (k : Nat) :
    digitsToNat l = digitsToNat (l.take k) * 10 ^ (l.length - k) + digitsToNat (l.drop k) := by
  conv_lhs => rw [← List.take_append_drop k l]
  rw [digitsToNat_append, List.length_drop]

theorem floor_natCast_add_half (K : ℕ) : ⌊(K : ℚ) + 1 / 2⌋ = (K : ℤ) := by
  rw [← @Int.cast_natCast ℚ _ K, Int.floor_int_add]
  norm_num

theorem floor_add_half (K r m : Nat) (h : r < 10 ^ m) :
    ⌊(K : ℚ) + (r : ℚ) / 10 ^ m + 1 / 2⌋
      = (K : ℤ) + (if 10 ^ m ≤ 2 * r then 1 else 0) := by
  have hm : (0 : ℚ) < 10 ^ m := by positivity
  rw [add_assoc, ← @Int.cast_natCast ℚ _ K, Int.floor_int_add]
  congr 1
  by_cases hc : 10 ^ m ≤ 2 * r
  · have hcq : (10 : ℚ) ^ m ≤ 2 * r := by exact_mod_cast hc
    have h1 : (1 : ℚ) / 2 ≤ (r : ℚ) / 10 ^ m := by
      rw [div_le_div_iff (by norm_num) hm]
      linarith
    have h2 : (r : ℚ) / 10 ^ m < 1 := by
      rw [div_lt_one hm]
      exact_mod_cast h
    rw [if_pos hc, Int.floor_eq_iff]
    constructor
    · push_cast
      linarith
    · push_cast
      linarith
  · have hcq : 2 * (r : ℚ) < 10 ^ m := by
      have : 2 * r < 10 ^ m := by omega
      exact_mod_cast this
    have h1 : (r : ℚ) / 10 ^ m < 1 / 2 := by
      rw [div_lt_div_iff hm (by norm_num)]
      linarith
    have h0 : (0 : ℚ) ≤ (r : ℚ) / 10 ^ m := by positivity
    rw [if_neg hc, Int.floor_eq_iff]
    constructor
    · push_cast
      linarith
    · push_cast
      linarith

theorem roundScaled_eq_floor (d : Nat) (ip fp : List Char)
    (hipd : ∀ c ∈ ip, c.isDigit = true) (hfpd : ∀ c ∈ fp, c.isDigit = true) :
    (roundScaled d ip fp : ℤ) = ⌊decValue ip fp * 10 ^ d + 1 / 2⌋ := by
  by_cases hcase : fp.length ≤ d
  · have htake : fp.take d = fp := List.take_of_length_le hcase
    have hval : decValue ip fp * 10 ^ d
        = ((digitsToNat ip * 10 ^ d + digitsToNat fp * 10 ^ (d - fp.length) : ℕ) : ℚ) := by
      have hpow : (10 : ℚ) ^ d = 10 ^ (d - fp.length) * 10 ^ fp.length := by
        rw [← pow_add]
        congr 1
        omega
      have hne : ((10 : ℚ) ^ fp.length) ≠ 0 := by positivity
      rw [decValue]
      push_cast
      rw [hpow]
      field_simp
      ring
    rw [hval, floor_natCast_add_half, roundScaled, htake,
      roundBit, List.get?_eq_none.mpr hcase]
    push_cast
    ring
  · push_neg at hcase
    have hdropne : fp.drop d ≠ [] := by
      intro he
      have := congrArg List.length he
      rw [List.length_drop] at this
      simp at this
      omega
    rcases hdcs : fp.drop d with _ | ⟨c, cs⟩
    · exact absurd hdcs hdropne
    have hget : fp.get? d = some c := by
      have h1 := List.get?_drop fp d 0
      rw [hdcs] at h1
      simpa using h1.symm
    have hcd : c.isDigit = true := by
      refine hfpd c ?_
      have : c ∈ fp.drop d := by rw [hdcs]; simp
      exact List.mem_of_mem_drop this
    have hcslen : cs.length = fp.length - d - 1 := by
      have := congrArg List.length hdcs
      rw [List.length_drop] at this
      simp at this
      omega
    have hdropval : digitsToNat (fp.drop d)
        = (c.toNat - 48) * 10 ^ (fp.length - d - 1) + digitsToNat cs := by
      rw [hdcs, digitsToNat_cons, hcslen]
    have hcs_lt : digitsToNat cs < 10 ^ (fp.length - d - 1) := by
      have := digitsToNat_lt cs fun x hx => by
        have hxd : x ∈ fp.drop d := by
          rw [hdcs]
          exact List.mem_cons_of_mem c hx
        exact hfpd x (List.mem_of_mem_drop hxd)
      rwa [hcslen] at this
    have hr_lt : digitsToNat (fp.drop d) < 10 ^ (fp.length - d) := by
      have := digitsToNat_lt (fp.drop d) fun x hx => hfpd x (List.mem_of_mem_drop hx)
      rwa [List.length_drop] at this
    have hlen_take : (fp.take d).length = d := by
      rw [List.length_take]
      omega
    have hval : decValue ip fp * 10 ^ d
        = ((digitsToNat ip * 10 ^ d + digitsToNat (fp.take d) : ℕ) : ℚ)
          + (digitsToNat (fp.drop d) : ℚ) / 10 ^ (fp.length - d) := by
      have hpow : (10 : ℚ) ^ fp.length = 10 ^ (fp.length - d) * 10 ^ d := by
        rw [← pow_add]
        congr 1
        omega
      have hsplit := digitsToNat_take_drop fp d
      rw [decValue, hsplit]
      push_cast
      rw [hpow]
      have hne1 : ((10 : ℚ) ^ (fp.length - d)) ≠ 0 := by positivity
      have hne2 : ((10 : ℚ) ^ d) ≠ 0 := by positivity
      field_simp
      ring
    rw [hval, floor_add_half _ _ _ hr_lt, roundScaled, roundBit, hget, hlen_take]
    have hm10 : 10 ^ (fp.length - d) = 10 * 10 ^ (fp.length - d - 1) := by
      have h1 : fp.length - d = (fp.length - d - 1) + 1 := by omega
      conv_lhs => rw [h1]
      rw [pow_succ]
      ring
    have hiff : 53 ≤ c.toNat ↔ 10 ^ (fp.length - d) ≤ 2 * digitsToNat (fp.drop d) := by
      have hc48 := char_toNat_of_isDigit hcd
      constructor
      · intro hv
        have hA5 : 5 ≤ c.toNat - 48 := by omega
        have h5X := Nat.mul_le_mul_right (10 ^ (fp.length - d - 1)) hA5
        omega
      · intro hcarry
        by_contra hv
        have hA4 : c.toNat - 48 ≤ 4 := by omega
        have hAX := Nat.mul_le_mul_right (10 ^ (fp.length - d - 1)) hA4
        omega
    rw [Nat.sub_self, pow_zero, Nat.mul_one]
    push_cast
    congr 1
    · rcases Classical.em (53 ≤ c.toNat) with hv | hv
      · rw [if_pos hv, if_pos (hiff.mp hv)]
      · rw [if_neg hv, if_neg fun hx => hv (hiff.mpr hx)]

/-- C1 (amended): with decimal separator '.', thousand separator ',' and
`decimalLength ≤ 100`, converting `parse(format(v))` to a number yields
exactly `v` rounded to `decimalLength` fractional digits, for every
non-negative `v` given by its plain decimal rendering (integer digits `ip`,
optional '.' and fraction digits `fp`), provided `v` is not an exact
half-way tie at position `decimalLength` (`htie`) and `v` scaled to the
wider of its own fraction length and `decimalLength` stays below `2^51`
(`hmag`).  The separator restriction is forced by the counterexample (with
decimal separator ',' the '.' of the stringified number is stripped);
`decimalLength ≤ 100` by the `RangeError` of `toFixed`; `htie` and `hmag`
by binary64: the double for `v` carries a relative error of at most `2^-52`,
so under `hmag` the error of `v` scaled to position `decimalLength` is less
than `2^-52 * 2^51 = 1/2` times the grid step — strictly smaller than the
distance from `v` to the nearest rounding boundary, which is at least half
a unit of the last literal digit for a non-tie — hence the program rounds
to the same digit string as the exact half-up model, stays below the 1e21
`toFixed` branch, and ties, where JavaScript can round either way
(`(1.005).toFixed(2) = "1.00"`), are excluded. -/
theorem c1_parse_format_value (cfg : Config) (ip fp s : List Char)
    (hdec : cfg.decimalSeparator = '.') (hthou : cfg.thousandSeparator = ',')
    (hd : cfg.decimalLength ≤ 100)
    (hip : ip ≠ []) (hipd : ∀ c ∈ ip, c.isDigit = true)
    (hfpd : ∀ c ∈ fp, c.isDigit = true)
    (hmag : (digitsToNat ip * 10 ^ fp.length + digitsToNat fp)
        * 10 ^ (cfg.decimalLength - fp.length) < 2 ^ 51)
    (htie : 2 * digitsToNat (fp.drop cfg.decimalLength)
        ≠ 10 ^ (fp.length - cfg.decimalLength))
    (hs : s = ip ++ '.' :: fp ∨ (s = ip ∧ fp = [])) :
    ∀ r, formatCurrency cfg s = some r →
      parseFloatQ (parseCurrency cfg r)
        = some (jsRound cfg.decimalLength (decValue ip fp)) := by
  intro r hr
  rw [formatCurrency_decimal_literal cfg ip fp s hdec hd hip hipd hfpd hs] at hr
  injection hr with hr
  subst hr
  rw [parseCurrency_formOutput cfg _ hdec hthou]
  have hfloor : ((roundScaled cfg.decimalLength ip fp : ℕ) : ℤ)
      = ⌊decValue ip fp * 10 ^ cfg.decimalLength + 1 / 2⌋ :=
    roundScaled_eq_floor cfg.decimalLength ip fp hipd hfpd
  by_cases h0 : cfg.decimalLength = 0
  · rw [if_pos h0, List.append_nil, parseFloatQ,
      jsParseFloat_digits _ (natDigits_all_digit _) (natDigits_ne_nil _),
      Option.map_some']
    congr 1
    rw [jsRound, ← hfloor, decValue, digitsToNat_natDigits, h0]
    simp [digitsToNat_nil]
  · rw [if_neg h0, parseFloatQ,
      jsParseFloat_dot _ _ (natDigits_all_digit _) (natDigits_ne_nil _),
      takeWhile_digits _ (padZeros_all_digit (natDigits_all_digit _)),
      Option.map_some']
    congr 1
    have hB : (padZeros cfg.decimalLength
        (natDigits (roundScaled cfg.decimalLength ip fp % 10 ^ cfg.decimalLength))).length
        = cfg.decimalLength :=
      padZeros_length (natDigits_length_le (by omega)
        (Nat.mod_lt _ (pow_pos (by norm_num) _)))
    rw [jsRound, ← hfloor, decValue, digitsToNat_natDigits,
      digitsToNat_padZeros, digitsToNat_natDigits, hB]
    have hq : (10 : ℚ) ^ cfg.decimalLength
          * ((roundScaled cfg.decimalLength ip fp / 10 ^ cfg.decimalLength : ℕ) : ℚ)
          + ((roundScaled cfg.decimalLength ip fp % 10 ^ cfg.decimalLength : ℕ) : ℚ)
        = ((roundScaled cfg.decimalLength ip fp : ℕ) : ℚ) := by
      have hnm := Nat.div_add_mod (roundScaled cfg.decimalLength ip fp)
        (10 ^ cfg.decimalLength)
      exact_mod_cast hnm
    have hne : ((10 : ℚ) ^ cfg.decimalLength) ≠ 0 := by positivity
    field_simp
    push_cast
    linarith [hq]

/-- Witness for C1 at the concrete input 1532.31. -/
theorem c1_parse_format_value_witness :
    parseFloatQ (parseCurrency ⟨2, '.', ','⟩ "1,532.31".data)
      = some (jsRound 2 (decValue "1532".data "31".data)) :=
  c1_parse_format_value ⟨2, '.', ','⟩ "1532".data "31".data "1532.31".data
    rfl rfl (by decide) (by decide) (by decide) (by decide) (by decide)
    (by decide) (Or.inl (by decide)) "1,532.31".data (by decide)

/-- Counterexample to C1 as stated: with decimal separator ',' and thousand
separator '.', the value 1.5 (stringified "1.5") formats to "15,00" — the
'.' is stripped — so the round trip reads 15, while 1.5 rounded to two
digits is 3/2. -/
theorem c1_counterexample :
    formatCurrency ⟨2, ',', '.'⟩ "1.5".data = some "15,00".data ∧
      jsParseFloat (parseCurrency ⟨2, ',', '.'⟩ "15,00".data)
        = some ("15".data, "00".data) ∧
      decValue "15".data "00".data ≠ jsRound 2 (decValue "1".data "5".data) := by
  refine ⟨by decide, by decide, ?_⟩
  have e1 : decValue "15".data "00".data = 15 := by
    have h1 : digitsToNat "15".data = 15 := by decide
    have h2 : digitsToNat "00".data = 0 := by decide
    have h3 : ("00".data).length = 2 := by decide
    rw [decValue, h1, h2, h3]
    norm_num
  have e2 : jsRound 2 (decValue "1".data "5".data) = 3 / 2 := by
    have h1 : digitsToNat "1".data = 1 := by decide
    have h2 : digitsToNat "5".data = 5 := by decide
    have h3 : ("5".data).length = 1 := by decide
    rw [jsRound, decValue, h1, h2, h3]
    norm_num
  rw [e1, e2]
  norm_num

